import Mathlib

/-!
# ASC100 codec: shallow embedding and verification

A shallow embedding of the ASC100 codec core (charset construction and
versions, the `#NAME#` marker tokenizer, the 7-bit/6-bit bit-packing engine,
the filter/encoding strategy system, and the legacy encode/decode pair),
translated from the Rust sources `src/lib.rs`, `src/char/charset.rs`,
`src/char/versions.rs` and `src/char/extensions.rs`.

Characters are modelled as their Unicode/ASCII code points (`Nat`); strings
are `List Nat`.  Fallible operations return `Except Asc100Error`.
-/

set_option maxRecDepth 10000

/-- Error taxonomy, from `Asc100Error` in `src/lib.rs`. -/
inductive Asc100Error where
  | invalidCharacter (c : Nat)
  | invalidBase64Character (c : Nat)
  | invalidIndex (i : Nat)
  | nonAsciiInput
deriving DecidableEq, Repr

/-! ## Charset construction (`src/char/charset.rs`) -/

/-- `create_base_charset`: indices 0–94 are printable ASCII 32–126, indices
95–99 are tab, newline, carriage return, NUL and the reserved byte `0x01`. -/
def create_base_charset : List Nat :=
  ((List.range 95).map (fun i => i + 32)) ++ [9, 10, 13, 0, 1]

/-- `swap_chars`: swap the entries at two indices. -/
def swap_chars (cs : List Nat) (i j : Nat) : List Nat :=
  let a := cs.getD i 0
  let b := cs.getD j 0
  (cs.set i b).set j a

/-- `swap_ranges`: element-wise swap of two equal-length index ranges
(the Rust function panics on unequal lengths; all call sites use equal
lengths, and the unequal case is modelled as the identity). -/
def swap_ranges (cs : List Nat) (r1Start r1Len r2Start r2Len : Nat) : List Nat :=
  if r1Len ≠ r2Len then cs
  else (List.range r1Len).foldl (fun acc i => swap_chars acc (r1Start + i) (r2Start + i)) cs

/-- `build_lookup_table`: 128-entry inverse table, 255 marking "absent". -/
def build_lookup_table (cs : List Nat) : List Nat :=
  (List.range 100).foldl
    (fun t i =>
      let ch := cs.getD i 0
      if ch < 128 then t.set ch i else t)
    (List.replicate 128 255)

/-- `create_v1_standard` (`src/char/versions.rs`): swap space and tilde. -/
def create_v1_standard : List Nat := swap_chars create_base_charset 0 94

/-- `create_v2_numbers_first`: digits moved to the front. -/
def create_v2_numbers_first : List Nat := swap_ranges create_base_charset 0 10 16 10

/-- `create_v3_lowercase_first`: lowercase letters moved to the front. -/
def create_v3_lowercase_first : List Nat := swap_ranges create_base_charset 0 26 65 26

/-- `create_v4_url_optimized`: lowercase first, then digits. -/
def create_v4_url_optimized : List Nat :=
  swap_ranges (swap_ranges create_base_charset 0 26 65 26) 26 10 42 10

/-- `V1_STANDARD.charset`. -/
def V1_charset : List Nat := create_v1_standard
/-- `V1_STANDARD.lookup`. -/
def V1_lookup : List Nat := build_lookup_table create_v1_standard
/-- `V2_NUMBERS.charset`. -/
def V2_charset : List Nat := create_v2_numbers_first
/-- `V2_NUMBERS.lookup`. -/
def V2_lookup : List Nat := build_lookup_table create_v2_numbers_first
/-- `V3_LOWERCASE.charset`. -/
def V3_charset : List Nat := create_v3_lowercase_first
/-- `V3_LOWERCASE.lookup`. -/
def V3_lookup : List Nat := build_lookup_table create_v3_lowercase_first
/-- `V4_URL.charset`. -/
def V4_charset : List Nat := create_v4_url_optimized
/-- `V4_URL.lookup`. -/
def V4_lookup : List Nat := build_lookup_table create_v4_url_optimized

/-- `BASE64_CHARS`: the 64-symbol packing alphabet `A–Z a–z 0–9 + /`. -/
def BASE64_CHARS : List Nat :=
  ((List.range 26).map (fun i => i + 65)) ++ ((List.range 26).map (fun i => i + 97)) ++
    ((List.range 10).map (fun i => i + 48)) ++ [43, 47]

/-- `build_base64_lookup` / `BASE64_LOOKUP`. -/
def BASE64_LOOKUP : List Nat :=
  (List.range 64).foldl (fun t i => t.set (BASE64_CHARS.getD i 0) i) (List.replicate 128 255)

/-- `MARKERS` (`src/char/charset.rs`): marker-name strings (as code lists)
paired with their reserved codes 100–118. -/
def MARKERS : List (List Nat × Nat) :=
  [ ([35, 73, 78, 86, 35], 100),  -- #INV#
    ([35, 69, 79, 70, 35], 101),  -- #EOF#
    ([35, 78, 76, 35], 102),      -- #NL#
    ([35, 86, 35], 103),          -- #V#
    ([35, 81, 35], 104),          -- #Q#
    ([35, 69, 35], 105),          -- #E#
    ([35, 88, 35], 106),          -- #X#
    ([35, 83, 83, 88, 35], 107),  -- #SSX#
    ([35, 69, 83, 88, 35], 108),  -- #ESX#
    ([35, 77, 69, 77, 35], 109),  -- #MEM#
    ([35, 67, 84, 88, 35], 110),  -- #CTX#
    ([35, 70, 88, 35], 111),      -- #FX#
    ([35, 65, 82, 71, 35], 112),  -- #ARG#
    ([35, 84, 82, 35], 113),      -- #TR#
    ([35, 68, 78, 84, 35], 114),  -- #DNT#
    ([35, 66, 82, 75, 35], 115),  -- #BRK#
    ([35, 72, 83, 79, 35], 116),  -- #HSO#
    ([35, 72, 83, 73, 35], 117),  -- #HSI#
    ([35, 65, 67, 75, 35], 118)]  -- #ACK#

/-- The marker-name string for a marker code: `MARKERS.iter().find(...)`
with `unwrap_or("")`, as in `decode_with_strategy`. -/
def marker_string (m : Nat) : List Nat :=
  ((MARKERS.find? (fun q => q.2 = m)).map (fun q => q.1)).getD []

/-- Convert a Lean string literal to its list of code points (helper for
stating concrete examples; inputs in scope are ASCII). -/
def toCodes (s : String) : List Nat := s.data.map (fun c => c.toNat)

/-! ## Filter strategies (`src/char/extensions.rs`) -/

/-- The validity test shared by the three filter strategies
(`StrictFilter`/`SanitizeFilter`/`StripFilter.handle_char`):
`ascii < 128 && (ascii >= 32 && ascii <= 126 || matches!(ascii, 9|10|13|0|1))`. -/
def in_base_range (c : Nat) : Prop :=
  c < 128 ∧ (32 ≤ c ∧ c ≤ 126 ∨ (c = 9 ∨ c = 10 ∨ c = 13 ∨ c = 0 ∨ c = 1))

instance (c : Nat) : Decidable (in_base_range c) := by
  unfold in_base_range; infer_instance

/-- `FilterAction`. -/
inductive FilterAction where
  | keep
  | replace (s : List Nat)
  | skip
  | error (c : Nat)

/-- `StrictFilter.handle_char`. -/
def strict_handle (c : Nat) : FilterAction :=
  if in_base_range c then .keep else .error c

/-- `SanitizeFilter.handle_char`: replace invalid characters with `#INV#`. -/
def sanitize_handle (c : Nat) : FilterAction :=
  if in_base_range c then .keep else .replace [35, 73, 78, 86, 35]

/-- `StripFilter.handle_char`: drop invalid characters silently. -/
def strip_handle (c : Nat) : FilterAction :=
  if in_base_range c then .keep else .skip

/-- `FilterStrategy::filter_input`: apply the per-character action over the
whole input, aborting on the first `Error` action. -/
def filter_input (handle : Nat → FilterAction) : List Nat → Except Asc100Error (List Nat)
  | [] => .ok []
  | c :: rest =>
    match handle c with
    | .keep => (filter_input handle rest).map (fun r => c :: r)
    | .replace s => (filter_input handle rest).map (fun r => s ++ r)
    | .skip => filter_input handle rest
    | .error ic => .error (.invalidCharacter ic)

/-- `EncodingStrategy` (trait): preprocessing, postprocessing and the
supported index range. -/
structure EncodingStrategy where
  preprocess : List Nat → Except Asc100Error (List Nat)
  postprocess : List Nat → List Nat
  supports_index : Nat → Bool

/-- `CoreStrategy<F>`: filter only; indices 0–99. -/
def CoreStrategy (handle : Nat → FilterAction) : EncodingStrategy where
  preprocess := filter_input handle
  postprocess := fun out => out
  supports_index := fun i => decide (i < 100)

/-- `ExtensionsStrategy<F>`: filter only; indices 0–127. -/
def ExtensionsStrategy (handle : Nat → FilterAction) : EncodingStrategy where
  preprocess := filter_input handle
  postprocess := fun out => out
  supports_index := fun i => decide (i ≤ 127)

/-- `CoreStrategy::strict()`. -/
def core_strict : EncodingStrategy := CoreStrategy strict_handle

/-- `ExtensionsStrategy::strict()`. -/
def extensions_strict : EncodingStrategy := ExtensionsStrategy strict_handle

/-! ## Sentinel tokenizer (`parse_sentinels` in `src/lib.rs`)

The Rust tokenizer scans left to right with an inner `while` loop that, on
seeing `#`, collects a candidate `#...#` (or `#...` at end of input) and then
either emits a marker sentinel (exact table match whose code the strategy
supports) or appends the candidate verbatim to the current text run.  The
embedding expresses the same scan as a single structurally-recursive pass:
the `Option (List Nat)` state is `some cand` exactly while the inner loop of
the source is collecting the characters of a candidate after its opening
`#`. -/

/-- `Sentinel`. -/
inductive Sentinel where
  | text (t : List Nat)
  | marker (m : Nat)
deriving DecidableEq, Repr

/-- One scanning step of `parse_sentinels`; `cur` is `current_text`,
`cand` (when present) is the candidate collected so far after its
opening `#`. -/
def parseGo (supports : Nat → Bool) : List Nat → List Nat → Option (List Nat) → List Sentinel
  | [], cur, none => if cur = [] then [] else [.text cur]
  | [], cur, some cand =>
    -- end of input inside a candidate: the candidate has no closing `#`;
    -- the source still checks it against the marker table, then appends it
    -- verbatim on failure and flushes the remaining text.
    match MARKERS.find? (fun q => q.1 = 35 :: cand) with
    | some q =>
      if supports q.2 then (if cur = [] then [] else [.text cur]) ++ [.marker q.2]
      else if cur ++ (35 :: cand) = [] then [] else [.text (cur ++ (35 :: cand))]
    | none => if cur ++ (35 :: cand) = [] then [] else [.text (cur ++ (35 :: cand))]
  | c :: rest, cur, none =>
    if c = 35 then parseGo supports rest cur (some [])
    else parseGo supports rest (cur ++ [c]) none
  | c :: rest, cur, some cand =>
    if c = 35 then
      -- closing `#` seen: the candidate string is `#cand#`
      match MARKERS.find? (fun q => q.1 = 35 :: (cand ++ [35])) with
      | some q =>
        if supports q.2 then
          (if cur = [] then [] else [.text cur]) ++ .marker q.2 :: parseGo supports rest [] none
        else parseGo supports rest (cur ++ (35 :: (cand ++ [35]))) none
      | none => parseGo supports rest (cur ++ (35 :: (cand ++ [35]))) none
    else parseGo supports rest cur (some (cand ++ [c]))

/-- `parse_sentinels`: the scan never fails (the Rust function returns
`Ok` on every path). -/
def parse_sentinels (supports : Nat → Bool) (input : List Nat) :
    Except Asc100Error (List Sentinel) :=
  .ok (parseGo supports input [] none)

/-- The source text a sentinel stands for (a text run is itself; a marker
sentinel stands for its `#NAME#` token). -/
def sentinelContent : Sentinel → List Nat
  | .text t => t
  | .marker m => marker_string m

/-! ## Bit-packing engine (`encode_with_strategy` / `decode_with_strategy`) -/

/-- The `w`-bit most-significant-bit-first bit expansion of a value:
`for i in (0..w).rev() { bits.push((v >> i) & 1) }`. -/
def valueToBits (w v : Nat) : List Nat :=
  (List.range w).map (fun k => v >>> (w - 1 - k) &&& 1)

/-- Reassemble a bit chunk into a value:
`for (i, &bit) in chunk.iter().enumerate() { v |= bit << (w - 1 - i) }`. -/
def chunkValue (w : Nat) (chunk : List Nat) : Nat :=
  (List.range chunk.length).foldl (fun v i => v ||| (chunk.getD i 0 <<< (w - 1 - i))) 0

/-- `indices → 7-bit binary` phase of the encoders. -/
def indicesToBits (indices : List Nat) : List Nat :=
  indices.flatMap (valueToBits 7)

/-- `while bits.len() % 6 != 0 { bits.push(0) }`. -/
def padBits (bits : List Nat) : List Nat :=
  bits ++ List.replicate ((6 - bits.length % 6) % 6) 0

/-- Slice a list into chunks of `n` (Rust `slice::chunks`); the fuel
argument only bounds the recursion and is always instantiated with the
list length, which suffices for every `n ≥ 1`. -/
def chunksFuel (n : Nat) : Nat → List Nat → List (List Nat)
  | _, [] => []
  | 0, _ :: _ => []
  | fuel + 1, l => l.take n :: chunksFuel n fuel (l.drop n)

/-- `bits.chunks(n)`. -/
def toChunks (n : Nat) (l : List Nat) : List (List Nat) :=
  chunksFuel n l.length l

/-- The final packing phase shared by both encoders: pad the 7-bit stream
to a multiple of 6 bits, chunk into 6-bit groups, and map each group
through `BASE64_CHARS`. -/
def packIndices (indices : List Nat) : List Nat :=
  (toChunks 6 (padBits (indicesToBits indices))).map
    (fun ch => BASE64_CHARS.getD (chunkValue 6 ch) 0)

/-- Character-to-index resolution for one text run in
`encode_with_strategy` (the `Sentinel::Text` arm). -/
def textToIndices (lookup : List Nat) : List Nat → Except Asc100Error (List Nat)
  | [] => .ok []
  | c :: rest =>
    if 128 ≤ c then .error .nonAsciiInput
    else
      let index := lookup.getD c 0
      if index = 255 then .error (.invalidCharacter c)
      else (textToIndices lookup rest).map (fun r => index :: r)

/-- Phase 3 of `encode_with_strategy`: convert sentinels to indices. -/
def sentinelsToIndices (lookup : List Nat) : List Sentinel → Except Asc100Error (List Nat)
  | [] => .ok []
  | .text t :: rest =>
    match textToIndices lookup t with
    | .error e => .error e
    | .ok i1 =>
      match sentinelsToIndices lookup rest with
      | .error e => .error e
      | .ok i2 => .ok (i1 ++ i2)
  | .marker m :: rest => (sentinelsToIndices lookup rest).map (fun r => m :: r)

/-- `encode_with_strategy` (the unused `_charset` parameter of the source
is omitted). -/
def encode_with_strategy (input : List Nat) (lookup : List Nat) (S : EncodingStrategy) :
    Except Asc100Error (List Nat) :=
  match S.preprocess input with
  | .error e => .error e
  | .ok filtered =>
    match parse_sentinels S.supports_index filtered with
    | .error e => .error e
    | .ok sentinels =>
      match sentinelsToIndices lookup sentinels with
      | .error e => .error e
      | .ok indices => .ok (packIndices indices)

/-- The base64-to-binary loop shared verbatim by `decode_with_strategy`
and the legacy `decode`. -/
def base64ToBits : List Nat → Except Asc100Error (List Nat)
  | [] => .ok []
  | c :: rest =>
    if 128 ≤ c then .error (.invalidBase64Character c)
    else
      let v := BASE64_LOOKUP.getD c 0
      if v = 255 then .error (.invalidBase64Character c)
      else (base64ToBits rest).map (fun bs => valueToBits 6 v ++ bs)

/-- 7-bit index extraction in `decode_with_strategy`: complete chunks only,
with the (always-true for genuine bits) `index <= 127` guard. -/
def extractIndices (bits : List Nat) : List Nat :=
  (toChunks 7 bits).flatMap
    (fun ch =>
      if ch.length = 7 then
        if chunkValue 7 ch ≤ 127 then [chunkValue 7 ch] else []
      else [])

/-- Index-to-text conversion in `decode_with_strategy`: marker codes are
re-expanded to their `#NAME#` string (empty for the reserved codes
119–127), charset indices to their character. -/
def indicesToText (charset : List Nat) (supports : Nat → Bool) :
    List Nat → Except Asc100Error (List Nat)
  | [] => .ok []
  | i :: rest =>
    if 100 ≤ i ∧ i ≤ 127 then
      if supports i then (indicesToText charset supports rest).map (fun r => marker_string i ++ r)
      else .error (.invalidIndex i)
    else if i < 100 then
      (indicesToText charset supports rest).map (fun r => charset.getD i 0 :: r)
    else .error (.invalidIndex i)

/-- `decode_with_strategy`. -/
def decode_with_strategy (encoded : List Nat) (charset : List Nat) (S : EncodingStrategy) :
    Except Asc100Error (List Nat) :=
  match base64ToBits encoded with
  | .error e => .error e
  | .ok bits =>
    match indicesToText charset S.supports_index (extractIndices bits) with
    | .error e => .error e
    | .ok text => .ok (S.postprocess text)

/-! ## Legacy encode/decode (`encode` / `decode` in `src/lib.rs`) -/

/-- Rust `str::replace`: replace every (non-overlapping, leftmost-first)
occurrence of `pat` in `s` by `rep`, never rescanning a replacement.  The
fuel argument only bounds the recursion; the initial fuel `s.length`
suffices for every non-empty pattern (all patterns in this file are
non-empty marker strings or single marker bytes). -/
def replaceFuel (pat rep : List Nat) : Nat → List Nat → List Nat
  | _, [] => []
  | 0, s => s
  | fuel + 1, c :: rest =>
    if pat ≠ [] ∧ pat.isPrefixOf (c :: rest) then
      rep ++ replaceFuel pat rep fuel ((c :: rest).drop pat.length)
    else c :: replaceFuel pat rep fuel rest

/-- `s.replace(pat, rep)`. -/
def replace_all (s pat rep : List Nat) : List Nat :=
  replaceFuel pat rep s.length s

/-- `MARKERS` stably sorted by descending name length, as
`preprocess_markers` sorts it (`sort_by_key(Reverse(len))`); every name
length is 3, 4 or 5, so the stable sort groups the lengths in order. -/
def sorted_markers : List (List Nat × Nat) :=
  MARKERS.filter (fun q => q.1.length = 5) ++ MARKERS.filter (fun q => q.1.length = 4) ++
    MARKERS.filter (fun q => q.1.length = 3)

/-- `preprocess_markers`: replace each marker-name string by its single
marker byte, longest names first. -/
def preprocess_markers (text : List Nat) : List Nat :=
  sorted_markers.foldl (fun res q => replace_all res q.1 [q.2]) text

/-- `postprocess_markers`: replace each marker byte by its name string,
in `MARKERS` order. -/
def postprocess_markers (text : List Nat) : List Nat :=
  MARKERS.foldl (fun res q => replace_all res [q.2] q.1) text

/-- The per-character index resolution of the legacy `encode`: codes
100–127 are used directly as indices, bypassing the charset lookup. -/
def legacyCharIndex (lookup : List Nat) (c : Nat) : Except Asc100Error Nat :=
  if 128 ≤ c then .error .nonAsciiInput
  else if 100 ≤ c ∧ c ≤ 127 then .ok c
  else
    let idx := lookup.getD c 0
    if idx = 255 then .error (.invalidCharacter c) else .ok idx

/-- The character-to-index loop of the legacy `encode`. -/
def legacyToIndices (lookup : List Nat) : List Nat → Except Asc100Error (List Nat)
  | [] => .ok []
  | c :: rest =>
    match legacyCharIndex lookup c with
    | .error e => .error e
    | .ok i => (legacyToIndices lookup rest).map (fun r => i :: r)

/-- Legacy `encode`: marker preprocessing, then indices, then packing
(the packing loop is textually identical to `encode_with_strategy`). -/
def encode_legacy (input : List Nat) (lookup : List Nat) : Except Asc100Error (List Nat) :=
  match legacyToIndices lookup (preprocess_markers input) with
  | .error e => .error e
  | .ok indices => .ok (packIndices indices)

/-- 7-bit index extraction in the legacy `decode`: identical to the
strategy path except that the guard is `index < 100`, silently dropping
every marker code. -/
def legacyExtractIndices (bits : List Nat) : List Nat :=
  (toChunks 7 bits).flatMap
    (fun ch =>
      if ch.length = 7 then
        if chunkValue 7 ch < 100 then [chunkValue 7 ch] else []
      else [])

/-- Index-to-character conversion of the legacy `decode` (its
`100..=127` arm pushes the raw byte `char::from(index)`). -/
def legacyIndicesToText (charset : List Nat) : List Nat → Except Asc100Error (List Nat)
  | [] => .ok []
  | i :: rest =>
    if 100 ≤ i ∧ i ≤ 127 then
      (legacyIndicesToText charset rest).map (fun r => i :: r)
    else if i < 100 then
      (legacyIndicesToText charset rest).map (fun r => charset.getD i 0 :: r)
    else .error (.invalidIndex i)

/-- Legacy `decode`. -/
def decode_legacy (encoded : List Nat) (charset : List Nat) : Except Asc100Error (List Nat) :=
  match base64ToBits encoded with
  | .error e => .error e
  | .ok bits =>
    match legacyIndicesToText charset (legacyExtractIndices bits) with
    | .error e => .error e
    | .ok text => .ok (postprocess_markers text)

/-! ## Inputs built from charset characters and marker tokens (for the
round-trip statements over "strings composed of charset characters and
well-formed, recognized marker tokens") -/

/-- An input item: a single literal character or one recognized marker
token. -/
inductive Item where
  | ch (c : Nat)
  | mk (m : Nat)

/-- Render an item to source text: a literal is itself; a marker is its
`#NAME#` token. -/
def renderItem : Item → List Nat
  | .ch c => [c]
  | .mk m => marker_string m

/-- Render a sequence of items to source text. -/
def renderItems (l : List Item) : List Nat := l.flatMap renderItem

/-- A valid item: a base-alphabet character, or a marker code present in
the marker table. -/
def validItem : Item → Prop
  | .ch c => in_base_range c
  | .mk m => ∃ q ∈ MARKERS, q.2 = m

instance (it : Item) : Decidable (validItem it) := by
  cases it <;> (unfold validItem; infer_instance)

/-- The per-index decode output under a supporting policy (what one
resolved index contributes to the output of `decode_with_strategy`). -/
def indexOutput (charset : List Nat) (i : Nat) : List Nat :=
  if 100 ≤ i ∧ i ≤ 127 then marker_string i
  else if i < 100 then [charset.getD i 0]
  else []

/-- The pending text a scanner state stands for. -/
def modeContent : Option (List Nat) → List Nat
  | none => []
  | some cand => 35 :: cand

/-- The indices one sentinel contributes in `encode_with_strategy`. -/
def sentinelIndices (lookup : List Nat) : Sentinel → List Nat
  | .text t => t.map (fun c => lookup.getD c 0)
  | .marker m => [m]

/-- The "no duplicates, no omissions, exact inverse lookup" invariant a
charset/lookup pair must satisfy (§ data model): the charset is a
100-entry duplicate-free rearrangement of the base set, the 128-entry
lookup inverts it below index 100, no two indices share a character, and
absent ASCII codes map to the sentinel 255. -/
def charset_lookup_ok (cs look : List Nat) : Prop :=
  cs.length = 100 ∧ look.length = 128 ∧
    cs.Nodup ∧ (∀ c ∈ cs, c ∈ create_base_charset) ∧ (∀ c ∈ create_base_charset, c ∈ cs) ∧
    (∀ i < 100, look.getD (cs.getD i 0) 0 = i) ∧
    (∀ i < 100, ∀ j < 100, cs.getD i 0 = cs.getD j 0 → i = j) ∧
    (∀ c < 128, c ∉ cs → look.getD c 0 = 255)

/-! ## Computed table literals (checked by evaluation) -/

theorem V1_charset_eq : V1_charset = [126, 33, 34, 35, 36, 37, 38, 39, 40, 41, 42, 43, 44, 45, 46, 47, 48, 49, 50, 51, 52, 53, 54, 55, 56, 57, 58, 59, 60, 61, 62, 63, 64, 65, 66, 67, 68, 69, 70, 71, 72, 73, 74, 75, 76, 77, 78, 79, 80, 81, 82, 83, 84, 85, 86, 87, 88, 89, 90, 91, 92, 93, 94, 95, 96, 97, 98, 99, 100, 101, 102, 103, 104, 105, 106, 107, 108, 109, 110, 111, 112, 113, 114, 115, 116, 117, 118, 119, 120, 121, 122, 123, 124, 125, 32, 9, 10, 13, 0, 1] := by rfl

theorem V1_lookup_eq : V1_lookup = [98, 99, 255, 255, 255, 255, 255, 255, 255, 95, 96, 255, 255, 97, 255, 255, 255, 255, 255, 255, 255, 255, 255, 255, 255, 255, 255, 255, 255, 255, 255, 255, 94, 1, 2, 3, 4, 5, 6, 7, 8, 9, 10, 11, 12, 13, 14, 15, 16, 17, 18, 19, 20, 21, 22, 23, 24, 25, 26, 27, 28, 29, 30, 31, 32, 33, 34, 35, 36, 37, 38, 39, 40, 41, 42, 43, 44, 45, 46, 47, 48, 49, 50, 51, 52, 53, 54, 55, 56, 57, 58, 59, 60, 61, 62, 63, 64, 65, 66, 67, 68, 69, 70, 71, 72, 73, 74, 75, 76, 77, 78, 79, 80, 81, 82, 83, 84, 85, 86, 87, 88, 89, 90, 91, 92, 93, 0, 255] := by rfl

theorem V2_charset_eq : V2_charset = [48, 49, 50, 51, 52, 53, 54, 55, 56, 57, 42, 43, 44, 45, 46, 47, 32, 33, 34, 35, 36, 37, 38, 39, 40, 41, 58, 59, 60, 61, 62, 63, 64, 65, 66, 67, 68, 69, 70, 71, 72, 73, 74, 75, 76, 77, 78, 79, 80, 81, 82, 83, 84, 85, 86, 87, 88, 89, 90, 91, 92, 93, 94, 95, 96, 97, 98, 99, 100, 101, 102, 103, 104, 105, 106, 107, 108, 109, 110, 111, 112, 113, 114, 115, 116, 117, 118, 119, 120, 121, 122, 123, 124, 125, 126, 9, 10, 13, 0, 1] := by rfl

theorem V2_lookup_eq : V2_lookup = [98, 99, 255, 255, 255, 255, 255, 255, 255, 95, 96, 255, 255, 97, 255, 255, 255, 255, 255, 255, 255, 255, 255, 255, 255, 255, 255, 255, 255, 255, 255, 255, 16, 17, 18, 19, 20, 21, 22, 23, 24, 25, 10, 11, 12, 13, 14, 15, 0, 1, 2, 3, 4, 5, 6, 7, 8, 9, 26, 27, 28, 29, 30, 31, 32, 33, 34, 35, 36, 37, 38, 39, 40, 41, 42, 43, 44, 45, 46, 47, 48, 49, 50, 51, 52, 53, 54, 55, 56, 57, 58, 59, 60, 61, 62, 63, 64, 65, 66, 67, 68, 69, 70, 71, 72, 73, 74, 75, 76, 77, 78, 79, 80, 81, 82, 83, 84, 85, 86, 87, 88, 89, 90, 91, 92, 93, 94, 255] := by rfl

theorem V3_charset_eq : V3_charset = [97, 98, 99, 100, 101, 102, 103, 104, 105, 106, 107, 108, 109, 110, 111, 112, 113, 114, 115, 116, 117, 118, 119, 120, 121, 122, 58, 59, 60, 61, 62, 63, 64, 65, 66, 67, 68, 69, 70, 71, 72, 73, 74, 75, 76, 77, 78, 79, 80, 81, 82, 83, 84, 85, 86, 87, 88, 89, 90, 91, 92, 93, 94, 95, 96, 32, 33, 34, 35, 36, 37, 38, 39, 40, 41, 42, 43, 44, 45, 46, 47, 48, 49, 50, 51, 52, 53, 54, 55, 56, 57, 123, 124, 125, 126, 9, 10, 13, 0, 1] := by rfl

theorem V3_lookup_eq : V3_lookup = [98, 99, 255, 255, 255, 255, 255, 255, 255, 95, 96, 255, 255, 97, 255, 255, 255, 255, 255, 255, 255, 255, 255, 255, 255, 255, 255, 255, 255, 255, 255, 255, 65, 66, 67, 68, 69, 70, 71, 72, 73, 74, 75, 76, 77, 78, 79, 80, 81, 82, 83, 84, 85, 86, 87, 88, 89, 90, 26, 27, 28, 29, 30, 31, 32, 33, 34, 35, 36, 37, 38, 39, 40, 41, 42, 43, 44, 45, 46, 47, 48, 49, 50, 51, 52, 53, 54, 55, 56, 57, 58, 59, 60, 61, 62, 63, 64, 0, 1, 2, 3, 4, 5, 6, 7, 8, 9, 10, 11, 12, 13, 14, 15, 16, 17, 18, 19, 20, 21, 22, 23, 24, 25, 91, 92, 93, 94, 255] := by rfl

theorem V4_charset_eq : V4_charset = [97, 98, 99, 100, 101, 102, 103, 104, 105, 106, 107, 108, 109, 110, 111, 112, 113, 114, 115, 116, 117, 118, 119, 120, 121, 122, 74, 75, 76, 77, 78, 79, 80, 81, 82, 83, 68, 69, 70, 71, 72, 73, 58, 59, 60, 61, 62, 63, 64, 65, 66, 67, 84, 85, 86, 87, 88, 89, 90, 91, 92, 93, 94, 95, 96, 32, 33, 34, 35, 36, 37, 38, 39, 40, 41, 42, 43, 44, 45, 46, 47, 48, 49, 50, 51, 52, 53, 54, 55, 56, 57, 123, 124, 125, 126, 9, 10, 13, 0, 1] := by rfl

theorem V4_lookup_eq : V4_lookup = [98, 99, 255, 255, 255, 255, 255, 255, 255, 95, 96, 255, 255, 97, 255, 255, 255, 255, 255, 255, 255, 255, 255, 255, 255, 255, 255, 255, 255, 255, 255, 255, 65, 66, 67, 68, 69, 70, 71, 72, 73, 74, 75, 76, 77, 78, 79, 80, 81, 82, 83, 84, 85, 86, 87, 88, 89, 90, 42, 43, 44, 45, 46, 47, 48, 49, 50, 51, 36, 37, 38, 39, 40, 41, 26, 27, 28, 29, 30, 31, 32, 33, 34, 35, 52, 53, 54, 55, 56, 57, 58, 59, 60, 61, 62, 63, 64, 0, 1, 2, 3, 4, 5, 6, 7, 8, 9, 10, 11, 12, 13, 14, 15, 16, 17, 18, 19, 20, 21, 22, 23, 24, 25, 91, 92, 93, 94, 255] := by rfl

theorem BASE64_CHARS_eq : BASE64_CHARS = [65, 66, 67, 68, 69, 70, 71, 72, 73, 74, 75, 76, 77, 78, 79, 80, 81, 82, 83, 84, 85, 86, 87, 88, 89, 90, 97, 98, 99, 100, 101, 102, 103, 104, 105, 106, 107, 108, 109, 110, 111, 112, 113, 114, 115, 116, 117, 118, 119, 120, 121, 122, 48, 49, 50, 51, 52, 53, 54, 55, 56, 57, 43, 47] := by rfl

theorem BASE64_LOOKUP_eq : BASE64_LOOKUP = [255, 255, 255, 255, 255, 255, 255, 255, 255, 255, 255, 255, 255, 255, 255, 255, 255, 255, 255, 255, 255, 255, 255, 255, 255, 255, 255, 255, 255, 255, 255, 255, 255, 255, 255, 255, 255, 255, 255, 255, 255, 255, 255, 62, 255, 255, 255, 63, 52, 53, 54, 55, 56, 57, 58, 59, 60, 61, 255, 255, 255, 255, 255, 255, 255, 0, 1, 2, 3, 4, 5, 6, 7, 8, 9, 10, 11, 12, 13, 14, 15, 16, 17, 18, 19, 20, 21, 22, 23, 24, 25, 255, 255, 255, 255, 255, 255, 26, 27, 28, 29, 30, 31, 32, 33, 34, 35, 36, 37, 38, 39, 40, 41, 42, 43, 44, 45, 46, 47, 48, 49, 50, 51, 255, 255, 255, 255, 255] := by rfl

/-! ## Pointwise facts about the tables -/

theorem in_base_range_lt (c : Nat) (h : in_base_range c) : c < 128 := h.1

theorem not_in_base_range_of_ge (c : Nat) (h : 128 ≤ c) : ¬ in_base_range c :=
  fun hb => absurd hb.1 (by omega)

/-- The marker table: every code lies in 100–118, `marker_string` inverts
the table, and every marker name consists of base-alphabet characters. -/
theorem markers_spec : ∀ q ∈ MARKERS,
    100 ≤ q.2 ∧ q.2 ≤ 118 ∧ marker_string q.2 = q.1 ∧ ∀ c ∈ q.1, in_base_range c := by
  decide

/-- V1 lookup/charset inverse on the base alphabet: every base-range
character resolves to an index below 100 and maps back to itself. -/
theorem v1_lookup_spec : ∀ c < 128, in_base_range c →
    V1_lookup.getD c 0 < 100 ∧ V1_charset.getD (V1_lookup.getD c 0) 0 = c ∧
      V1_lookup.getD c 0 ≠ 255 := by
  simp only [V1_lookup_eq, V1_charset_eq]
  decide

/-- The packing alphabet and its lookup are inverse on values 0–63. -/
theorem base64_spec : ∀ v < 64,
    BASE64_CHARS.getD v 0 < 128 ∧
      BASE64_LOOKUP.getD (BASE64_CHARS.getD v 0) 0 = v := by
  simp only [BASE64_CHARS_eq, BASE64_LOOKUP_eq]
  decide

/-- Reassembling the 7-bit expansion of an index below 128 recovers it. -/
theorem chunkValue_valueToBits : ∀ idx < 128, chunkValue 7 (valueToBits 7 idx) = idx := by
  decide

theorem valueToBits_length (w v : Nat) : (valueToBits w v).length = w := by
  simp [valueToBits]

theorem valueToBits_bits (w v : Nat) : ∀ b ∈ valueToBits w v, b ≤ 1 := by
  intro b hb
  simp only [valueToBits, List.mem_map] at hb
  obtain ⟨k, _, rfl⟩ := hb
  exact Nat.and_le_right

/-- A six-entry bit list is faithfully encoded by its 6-bit value. -/
theorem bits6_roundtrip (b0 b1 b2 b3 b4 b5 : Nat)
    (h0 : b0 ≤ 1) (h1 : b1 ≤ 1) (h2 : b2 ≤ 1) (h3 : b3 ≤ 1) (h4 : b4 ≤ 1) (h5 : b5 ≤ 1) :
    chunkValue 6 [b0, b1, b2, b3, b4, b5] < 64 ∧
      valueToBits 6 (chunkValue 6 [b0, b1, b2, b3, b4, b5]) = [b0, b1, b2, b3, b4, b5] := by
  interval_cases b0 <;> interval_cases b1 <;> interval_cases b2 <;>
    interval_cases b3 <;> interval_cases b4 <;> interval_cases b5 <;> decide

theorem bits6_roundtrip_list (ch : List Nat) (hlen : ch.length = 6) (hb : ∀ b ∈ ch, b ≤ 1) :
    chunkValue 6 ch < 64 ∧ valueToBits 6 (chunkValue 6 ch) = ch := by
  match ch, hlen with
  | [b0, b1, b2, b3, b4, b5], _ =>
    exact bits6_roundtrip b0 b1 b2 b3 b4 b5
      (hb _ (by simp)) (hb _ (by simp)) (hb _ (by simp))
      (hb _ (by simp)) (hb _ (by simp)) (hb _ (by simp))

theorem chunksFuel_nil (n fuel : Nat) : chunksFuel n fuel [] = [] := by
  cases fuel <;> rfl

theorem chunksFuel_succ (n f : Nat) (l : List Nat) (hl : l ≠ []) :
    chunksFuel n (f + 1) l = l.take n :: chunksFuel n f (l.drop n) := by
  cases l with
  | nil => exact absurd rfl hl
  | cons c cs => rfl

/-- Chunking a concatenation of exact `n`-groups followed by a short tail
yields exactly those groups plus (when non-empty) the tail. -/
theorem chunksFuel_join_tail (n : Nat) (hn : 0 < n) :
    ∀ (gs : List (List Nat)) (fuel : Nat) (t : List Nat),
      (∀ g ∈ gs, g.length = n) → t.length < n → (gs.flatten ++ t).length ≤ fuel →
      chunksFuel n fuel (gs.flatten ++ t) = gs ++ (if t = [] then [] else [t]) := by
  intro gs
  induction gs with
  | nil =>
    intro fuel t _ ht hfuel
    simp only [List.flatten_nil, List.nil_append] at hfuel ⊢
    cases t with
    | nil => simp [chunksFuel_nil]
    | cons c cs =>
      obtain ⟨f, rfl⟩ : ∃ f, fuel = f + 1 := ⟨fuel - 1, by simp at hfuel; omega⟩
      rw [chunksFuel_succ n f _ (by simp)]
      rw [List.take_of_length_le (by omega), List.drop_eq_nil_of_le (by omega), chunksFuel_nil]
      simp
  | cons g gs ih =>
    intro fuel t hg ht hfuel
    have hglen : g.length = n := hg g (by simp)
    have hne : g ++ (gs.flatten ++ t) ≠ [] := by
      intro h
      have := congrArg List.length h
      simp [hglen] at this
      omega
    simp only [List.flatten_cons, List.append_assoc] at hfuel ⊢
    obtain ⟨f, rfl⟩ : ∃ f, fuel = f + 1 := by
      refine ⟨fuel - 1, ?_⟩
      have := hfuel
      simp [hglen] at this
      omega
    rw [chunksFuel_succ n f _ hne, List.take_left' hglen, List.drop_left' hglen]
    rw [ih f t (fun g hgm => hg g (by simp [hgm])) ht
      (by have := hfuel; simp [hglen] at this ⊢; omega)]
    simp

/-- Chunk count for an exact multiple of the chunk size. -/
theorem chunksFuel_length (n : Nat) (hn : 0 < n) :
    ∀ (m fuel : Nat) (bs : List Nat), bs.length = n * m → bs.length ≤ fuel →
      (chunksFuel n fuel bs).length = m := by
  intro m
  induction m with
  | zero =>
    intro fuel bs hlen _
    have : bs = [] := List.eq_nil_of_length_eq_zero (by omega)
    subst this
    simp [chunksFuel_nil]
  | succ m ih =>
    intro fuel bs hlen hfuel
    have hbs : bs ≠ [] := by
      intro h; subst h; simp at hlen; omega
    obtain ⟨f, rfl⟩ : ∃ f, fuel = f + 1 := ⟨fuel - 1, by cases bs with
      | nil => exact absurd rfl hbs
      | cons c cs => simp at hfuel; omega⟩
    rw [chunksFuel_succ n f bs hbs]
    have hmul : n * (m + 1) = n * m + n := by ring
    have hdrop : (bs.drop n).length = n * m := by
      rw [List.length_drop]; omega
    simp only [List.length_cons]
    rw [ih f (bs.drop n) hdrop (by rw [List.length_drop]; omega)]

theorem indicesToBits_cons (i : Nat) (rest : List Nat) :
    indicesToBits (i :: rest) = valueToBits 7 i ++ indicesToBits rest := by
  simp [indicesToBits]

theorem indicesToBits_length (idxs : List Nat) : (indicesToBits idxs).length = 7 * idxs.length := by
  induction idxs with
  | nil => rfl
  | cons i rest ih =>
    rw [indicesToBits_cons, List.length_append, valueToBits_length, ih, List.length_cons]
    ring

theorem indicesToBits_bits (idxs : List Nat) : ∀ b ∈ indicesToBits idxs, b ≤ 1 := by
  intro b hb
  simp only [indicesToBits, List.mem_flatMap] at hb
  obtain ⟨i, _, hbi⟩ := hb
  exact valueToBits_bits 7 i b hbi

theorem padBits_length (bits : List Nat) :
    (padBits bits).length = bits.length + (6 - bits.length % 6) % 6 := by
  simp [padBits]

theorem padBits_bits (bits : List Nat) (h : ∀ b ∈ bits, b ≤ 1) :
    ∀ b ∈ padBits bits, b ≤ 1 := by
  intro b hb
  rcases List.mem_append.mp hb with h1 | h2
  · exact h b h1
  · rw [List.eq_of_mem_replicate h2]; omega

/-- Unpacking the packed symbol stream of a 6-aligned bit list recovers
exactly those bits. -/
theorem base64ToBits_chunks (m : Nat) :
    ∀ (fuel : Nat) (bs : List Nat), bs.length = 6 * m → bs.length ≤ fuel →
      (∀ b ∈ bs, b ≤ 1) →
      base64ToBits ((chunksFuel 6 fuel bs).map (fun ch => BASE64_CHARS.getD (chunkValue 6 ch) 0)) =
        .ok bs := by
  induction m with
  | zero =>
    intro fuel bs hlen _ _
    have : bs = [] := List.eq_nil_of_length_eq_zero (by omega)
    subst this
    simp [chunksFuel_nil, base64ToBits]
  | succ m ih =>
    intro fuel bs hlen hfuel hbits
    have hmul : 6 * (m + 1) = 6 * m + 6 := by ring
    have hbs : bs ≠ [] := by
      intro h; subst h; simp at hlen
    obtain ⟨f, rfl⟩ : ∃ f, fuel = f + 1 := ⟨fuel - 1, by cases bs with
      | nil => exact absurd rfl hbs
      | cons c cs => simp at hfuel; omega⟩
    rw [chunksFuel_succ 6 f bs hbs, List.map_cons]
    have htake : (bs.take 6).length = 6 := by
      rw [List.length_take]; omega
    have htbits : ∀ b ∈ bs.take 6, b ≤ 1 := fun b hb => hbits b (List.take_subset 6 bs hb)
    obtain ⟨hv64, hvbits⟩ := bits6_roundtrip_list (bs.take 6) htake htbits
    obtain ⟨hc128, hlook⟩ := base64_spec (chunkValue 6 (bs.take 6)) hv64
    have hrest : base64ToBits ((chunksFuel 6 f (bs.drop 6)).map
        (fun ch => BASE64_CHARS.getD (chunkValue 6 ch) 0)) = .ok (bs.drop 6) := by
      refine ih f (bs.drop 6) ?_ ?_ (fun b hb => hbits b (List.drop_subset 6 bs hb))
      · rw [List.length_drop]; omega
      · rw [List.length_drop]; omega
    simp only [base64ToBits]
    rw [hlook]
    rw [if_neg (show ¬ 128 ≤ BASE64_CHARS.getD (chunkValue 6 (bs.take 6)) 0 by omega)]
    rw [if_neg (show ¬ chunkValue 6 (bs.take 6) = 255 by omega)]
    rw [hrest]
    simp only [Except.map]
    rw [hvbits, List.take_append_drop]

/-- The padded bit stream of an index list: the exact 7-bit groups
followed by fewer than six zero padding bits. -/
theorem padBits_indices (idxs : List Nat) :
    padBits (indicesToBits idxs) =
      (idxs.map (valueToBits 7)).flatten ++
        List.replicate ((6 - (7 * idxs.length) % 6) % 6) 0 := by
  rw [padBits, indicesToBits_length, indicesToBits, List.flatMap_def]

theorem pad_lt_six (n : Nat) : (6 - (7 * n) % 6) % 6 < 6 := by omega

/-- Chunking the padded stream into 7-bit groups recovers the groups plus
(at most) one short padding chunk. -/
theorem toChunks_padBits (idxs : List Nat) :
    toChunks 7 (padBits (indicesToBits idxs)) =
      idxs.map (valueToBits 7) ++
        (if List.replicate ((6 - (7 * idxs.length) % 6) % 6) 0 = ([] : List Nat) then []
         else [List.replicate ((6 - (7 * idxs.length) % 6) % 6) 0]) := by
  rw [toChunks, padBits_indices]
  exact chunksFuel_join_tail 7 (by omega) (idxs.map (valueToBits 7)) _ _
    (by
      intro g hg
      simp only [List.mem_map] at hg
      obtain ⟨i, _, rfl⟩ := hg
      exact valueToBits_length 7 i)
    (by rw [List.length_replicate]; exact Nat.lt_of_lt_of_le (pad_lt_six idxs.length) (by omega))
    (le_refl _)

/-- Extracting 7-bit indices from the padded stream of `idxs` recovers
exactly `idxs`: the short padding chunk is dropped, never read as data. -/
theorem extractIndices_padBits (idxs : List Nat) (h : ∀ i ∈ idxs, i < 128) :
    extractIndices (padBits (indicesToBits idxs)) = idxs := by
  rw [extractIndices, toChunks_padBits, List.flatMap_append]
  have hgroups : (idxs.map (valueToBits 7)).flatMap
      (fun ch => if ch.length = 7 then
        if chunkValue 7 ch ≤ 127 then [chunkValue 7 ch] else [] else []) = idxs := by
    induction idxs with
    | nil => rfl
    | cons i rest ih =>
      have hi : i < 128 := h i (by simp)
      rw [List.map_cons, List.flatMap_cons,
        ih (fun j hj => h j (by simp [hj]))]
      rw [if_pos (valueToBits_length 7 i), chunkValue_valueToBits i hi,
        if_pos (by omega)]
      rfl
  rw [hgroups]
  have htail : (if List.replicate ((6 - (7 * idxs.length) % 6) % 6) 0 = ([] : List Nat) then ([] : List (List Nat))
      else [List.replicate ((6 - (7 * idxs.length) % 6) % 6) 0]).flatMap
      (fun ch => if ch.length = 7 then
        if chunkValue 7 ch ≤ 127 then [chunkValue 7 ch] else [] else []) = [] := by
    by_cases hr : List.replicate ((6 - (7 * idxs.length) % 6) % 6) 0 = ([] : List Nat)
    · rw [if_pos hr]; rfl
    · rw [if_neg hr]
      have hlen : (List.replicate ((6 - (7 * idxs.length) % 6) % 6) 0).length ≠ 7 := by
        rw [List.length_replicate]
        have := pad_lt_six idxs.length
        omega
      simp only [List.flatMap_cons, List.flatMap_nil, List.append_nil]
      rw [if_neg hlen]
  rw [htail, List.append_nil]

/-- The legacy index extraction keeps exactly the sub-100 values of the
strategy extraction: its only difference is the `< 100` guard. -/
theorem legacyExtract_filter (bits : List Nat) :
    legacyExtractIndices bits = (extractIndices bits).filter (fun i => i < 100) := by
  rw [legacyExtractIndices, extractIndices]
  induction toChunks 7 bits with
  | nil => rfl
  | cons ch rest ih =>
    rw [List.flatMap_cons, List.flatMap_cons, List.filter_append, ih]
    congr 1
    by_cases h7 : ch.length = 7
    · rw [if_pos h7, if_pos h7]
      by_cases h127 : chunkValue 7 ch ≤ 127
      · rw [if_pos h127]
        by_cases h100 : chunkValue 7 ch < 100
        · rw [if_pos h100]; simp [h100]
        · rw [if_neg h100]; simp [h100]
      · rw [if_neg h127, if_neg (by omega : ¬ chunkValue 7 ch < 100)]
        rfl
    · rw [if_neg h7, if_neg h7]; rfl

/-- Unpacking a packed index stream recovers the padded bit stream. -/
theorem base64ToBits_packIndices (idxs : List Nat) :
    base64ToBits (packIndices idxs) = .ok (padBits (indicesToBits idxs)) := by
  rw [packIndices, toChunks]
  have hmod : (padBits (indicesToBits idxs)).length % 6 = 0 := by
    rw [padBits_length, indicesToBits_length]
    omega
  exact base64ToBits_chunks ((padBits (indicesToBits idxs)).length / 6) _ _
    (by omega) (le_refl _)
    (padBits_bits _ (indicesToBits_bits idxs))

/-- Output length of the packing phase: `ceil(7 n / 6)` symbols. -/
theorem packIndices_length (idxs : List Nat) :
    (packIndices idxs).length = (7 * idxs.length + 5) / 6 := by
  rw [packIndices, List.length_map, toChunks]
  have hlen : (padBits (indicesToBits idxs)).length = 7 * idxs.length + (6 - (7 * idxs.length) % 6) % 6 := by
    rw [padBits_length, indicesToBits_length]
  rw [chunksFuel_length 6 (by omega) ((7 * idxs.length + 5) / 6) _ _
    (by rw [hlen]; omega) (le_refl _)]

/-! ## Filter lemmas -/

theorem strict_handle_keep {c : Nat} (h : in_base_range c) : strict_handle c = .keep := by
  rw [strict_handle, if_pos h]

theorem filter_input_keep (handle : Nat → FilterAction) :
    ∀ s : List Nat, (∀ c ∈ s, handle c = .keep) → filter_input handle s = .ok s := by
  intro s
  induction s with
  | nil => intro _; rfl
  | cons c rest ih =>
    intro h
    rw [filter_input]
    rw [h c (by simp), ih (fun d hd => h d (by simp [hd]))]
    rfl

/-- Strict filtering of an input with an out-of-range character fails with
the invalid-character error for an offending character of the input. -/
theorem filter_strict_error :
    ∀ s : List Nat, (∃ c ∈ s, ¬ in_base_range c) →
      ∃ c ∈ s, ¬ in_base_range c ∧
        filter_input strict_handle s = .error (.invalidCharacter c) := by
  intro s
  induction s with
  | nil => rintro ⟨c, hc, _⟩; exact absurd hc (List.not_mem_nil c)
  | cons c rest ih =>
    intro h
    by_cases hc : in_base_range c
    · obtain ⟨d, hd, hdbad⟩ := h
      have hdrest : d ∈ rest := by
        rcases List.mem_cons.mp hd with rfl | hmem
        · exact absurd hc hdbad
        · exact hmem
      obtain ⟨e, he, hebad, herr⟩ := ih ⟨d, hdrest, hdbad⟩
      refine ⟨e, by simp [he], hebad, ?_⟩
      rw [filter_input, strict_handle_keep hc, herr]
      rfl
    · refine ⟨c, by simp, hc, ?_⟩
      rw [filter_input, strict_handle, if_neg hc]

/-! ## Tokenizer lemmas -/

/-- The tokenizer partitions its input exactly: concatenating the contents
of the produced sentinels (text runs verbatim, markers as their `#NAME#`
tokens) restores the scanned text. -/
theorem parseGo_content (supports : Nat → Bool) :
    ∀ (input cur : List Nat) (mode : Option (List Nat)),
      (parseGo supports input cur mode).flatMap sentinelContent =
        cur ++ modeContent mode ++ input := by
  intro input
  induction input with
  | nil =>
    intro cur mode
    cases mode with
    | none =>
      by_cases hcur : cur = []
      · subst hcur; rw [parseGo]; simp [modeContent]
      · rw [parseGo, if_neg hcur]; simp [sentinelContent, modeContent]
    | some cand =>
      rw [parseGo]
      cases hfind : MARKERS.find? (fun q => q.1 = 35 :: cand) with
      | none =>
        simp only
        by_cases hne : cur ++ (35 :: cand) = []
        · exact absurd (congrArg List.length hne) (by simp)
        · rw [if_neg hne]; simp [sentinelContent, modeContent]
      | some q =>
        have hq1 : q.1 = 35 :: cand := by
          have := List.find?_some hfind
          exact of_decide_eq_true this
        have hqm : q ∈ MARKERS := List.mem_of_find?_eq_some hfind
        simp only
        by_cases hsup : supports q.2
        · rw [if_pos hsup]
          by_cases hcur : cur = []
          · subst hcur
            simp [sentinelContent, modeContent, (markers_spec q hqm).2.2.1, hq1]
          · rw [if_neg hcur]
            simp [sentinelContent, modeContent, (markers_spec q hqm).2.2.1, hq1]
        · rw [if_neg hsup]
          have hne : cur ++ (35 :: cand) ≠ [] := by
            intro hne
            exact absurd (congrArg List.length hne) (by simp)
          rw [if_neg hne]
          simp [sentinelContent, modeContent]
  | cons c rest ih =>
    intro cur mode
    cases mode with
    | none =>
      rw [parseGo]
      by_cases hc : c = 35
      · rw [if_pos hc, ih]
        subst hc
        simp [modeContent]
      · rw [if_neg hc, ih]
        simp [modeContent]
    | some cand =>
      rw [parseGo]
      by_cases hc : c = 35
      · subst hc
        rw [if_pos rfl]
        cases hfind : MARKERS.find? (fun q => q.1 = 35 :: (cand ++ [35])) with
        | none =>
          simp only
          rw [ih]
          simp [modeContent]
        | some q =>
          have hq1 : q.1 = 35 :: (cand ++ [35]) := by
            have := List.find?_some hfind
            exact of_decide_eq_true this
          have hqm : q ∈ MARKERS := List.mem_of_find?_eq_some hfind
          simp only
          by_cases hsup : supports q.2
          · rw [if_pos hsup]
            by_cases hcur : cur = []
            · subst hcur
              simp [sentinelContent, modeContent, (markers_spec q hqm).2.2.1, hq1, ih]
            · rw [if_neg hcur]
              simp [sentinelContent, modeContent, (markers_spec q hqm).2.2.1, hq1, ih]
          · rw [if_neg hsup, ih]
            simp [modeContent]
      · rw [if_neg hc, ih]
        simp [modeContent]

/-- Every marker sentinel the tokenizer emits carries a table code that
the active policy supports: unknown or unsupported candidates never
become markers. -/
theorem parseGo_markers (supports : Nat → Bool) :
    ∀ (input cur : List Nat) (mode : Option (List Nat)) (m : Nat),
      Sentinel.marker m ∈ parseGo supports input cur mode →
        supports m = true ∧ ∃ q ∈ MARKERS, q.2 = m := by
  intro input
  induction input with
  | nil =>
    intro cur mode m hm
    cases mode with
    | none =>
      rw [parseGo] at hm
      by_cases hcur : cur = []
      · subst hcur; simp at hm
      · rw [if_neg hcur] at hm
        simp at hm
    | some cand =>
      rw [parseGo] at hm
      cases hfind : MARKERS.find? (fun q => q.1 = 35 :: cand) with
      | none =>
        rw [hfind] at hm
        simp only at hm
        by_cases hne : cur ++ (35 :: cand) = []
        · rw [if_pos hne] at hm; simp at hm
        · rw [if_neg hne] at hm; simp at hm
      | some q =>
        rw [hfind] at hm
        have hqm : q ∈ MARKERS := List.mem_of_find?_eq_some hfind
        simp only at hm
        by_cases hsup : supports q.2
        · rw [if_pos hsup] at hm
          rcases List.mem_append.mp hm with h1 | h2
          · by_cases hcur : cur = []
            · rw [if_pos hcur] at h1; simp at h1
            · rw [if_neg hcur] at h1; simp at h1
          · have hmq : m = q.2 := by
              have h3 := List.mem_singleton.mp h2
              injection h3 with h4
            subst hmq
            exact ⟨hsup, q, hqm, rfl⟩
        · rw [if_neg hsup] at hm
          by_cases hne : cur ++ (35 :: cand) = []
          · rw [if_pos hne] at hm; simp at hm
          · rw [if_neg hne] at hm; simp at hm
  | cons c rest ih =>
    intro cur mode m hm
    cases mode with
    | none =>
      rw [parseGo] at hm
      by_cases hc : c = 35
      · rw [if_pos hc] at hm; exact ih _ _ _ hm
      · rw [if_neg hc] at hm; exact ih _ _ _ hm
    | some cand =>
      rw [parseGo] at hm
      by_cases hc : c = 35
      · subst hc
        rw [if_pos rfl] at hm
        cases hfind : MARKERS.find? (fun q => q.1 = 35 :: (cand ++ [35])) with
        | none =>
          rw [hfind] at hm
          exact ih _ _ _ hm
        | some q =>
          rw [hfind] at hm
          have hqm : q ∈ MARKERS := List.mem_of_find?_eq_some hfind
          simp only at hm
          by_cases hsup : supports q.2
          · rw [if_pos hsup] at hm
            rcases List.mem_append.mp hm with h1 | h2
            · by_cases hcur : cur = []
              · rw [if_pos hcur] at h1; simp at h1
              · rw [if_neg hcur] at h1; simp at h1
            · rcases List.mem_cons.mp h2 with heq | hrec
              · have hmq : m = q.2 := by injection heq with h4
                subst hmq
                exact ⟨hsup, q, hqm, rfl⟩
              · exact ih _ _ _ hrec
          · rw [if_neg hsup] at hm
            exact ih _ _ _ hm
      · rw [if_neg hc] at hm
        exact ih _ _ _ hm

/-- Characters inside the tokenizer's text runs all come from the scanned
input. -/
theorem parseGo_text_chars (supports : Nat → Bool) (input : List Nat) (t : List Nat)
    (ht : Sentinel.text t ∈ parseGo supports input [] none) :
    ∀ c ∈ t, c ∈ input := by
  intro c hc
  have hmem : c ∈ (parseGo supports input [] none).flatMap sentinelContent :=
    List.mem_flatMap.mpr ⟨Sentinel.text t, ht, hc⟩
  rw [parseGo_content supports input [] none] at hmem
  simpa [modeContent] using hmem

/-! ## Index conversion lemmas -/

theorem textToIndices_ok (lookup : List Nat) :
    ∀ t : List Nat, (∀ c ∈ t, c < 128 ∧ lookup.getD c 0 ≠ 255) →
      textToIndices lookup t = .ok (t.map (fun c => lookup.getD c 0)) := by
  intro t
  induction t with
  | nil => intro _; rfl
  | cons c rest ih =>
    intro h
    obtain ⟨hc, hl⟩ := h c (by simp)
    rw [textToIndices]
    rw [if_neg (by omega), if_neg hl, ih (fun d hd => h d (by simp [hd]))]
    rfl

theorem sentinelsToIndices_ok (lookup : List Nat) :
    ∀ sents : List Sentinel,
      (∀ t, Sentinel.text t ∈ sents → ∀ c ∈ t, c < 128 ∧ lookup.getD c 0 ≠ 255) →
      sentinelsToIndices lookup sents = .ok (sents.flatMap (sentinelIndices lookup)) := by
  intro sents
  induction sents with
  | nil => intro _; rfl
  | cons st rest ih =>
    intro h
    cases st with
    | text t =>
      rw [sentinelsToIndices]
      rw [textToIndices_ok lookup t (h t (by simp)),
        ih (fun u hu c hc => h u (by simp [hu]) c hc)]
      simp [sentinelIndices]
    | marker m =>
      rw [sentinelsToIndices, ih (fun u hu c hc => h u (by simp [hu]) c hc)]
      simp [sentinelIndices, Except.map]

theorem indicesToText_ok (charset : List Nat) (sup : Nat → Bool) :
    ∀ idxs : List Nat, (∀ i ∈ idxs, i ≤ 127 ∧ (100 ≤ i → sup i = true)) →
      indicesToText charset sup idxs = .ok (idxs.flatMap (indexOutput charset)) := by
  intro idxs
  induction idxs with
  | nil => intro _; rfl
  | cons i rest ih =>
    intro h
    obtain ⟨h127, hsup⟩ := h i (by simp)
    rw [indicesToText, List.flatMap_cons]
    by_cases h100 : 100 ≤ i ∧ i ≤ 127
    · rw [if_pos h100, hsup h100.1, if_pos rfl]
      rw [ih (fun j hj => h j (by simp [hj]))]
      simp only [Except.map, indexOutput]
      rw [if_pos h100]
    · rw [if_neg h100, if_pos (show i < 100 by omega)]
      rw [ih (fun j hj => h j (by simp [hj]))]
      simp only [Except.map, indexOutput]
      rw [if_neg h100, if_pos (show i < 100 by omega)]
      rfl

/-! ## Master round-trip -/

theorem indexOutput_lookup (c : Nat) (hc : in_base_range c) :
    indexOutput V1_charset (V1_lookup.getD c 0) = [c] := by
  obtain ⟨hlt, hback, _⟩ := v1_lookup_spec c (in_base_range_lt c hc) hc
  simp only [indexOutput]
  rw [if_neg (by omega : ¬ (100 ≤ V1_lookup.getD c 0 ∧ V1_lookup.getD c 0 ≤ 127)),
    if_pos hlt, hback]

/-- Decoding inverts the index contribution of a base-range text run. -/
theorem text_output_eq (t : List Nat) (h : ∀ c ∈ t, in_base_range c) :
    (t.map (fun c => V1_lookup.getD c 0)).flatMap (indexOutput V1_charset) = t := by
  induction t with
  | nil => rfl
  | cons c rest ih =>
    rw [List.map_cons, List.flatMap_cons, ih (fun d hd => h d (by simp [hd])),
      indexOutput_lookup c (h c (by simp))]
    rfl

/-- Decoding inverts the per-sentinel index contribution under V1. -/
theorem sentinel_output_eq (sup : Nat → Bool) (input : List Nat)
    (hs : ∀ c ∈ input, in_base_range c) (st : Sentinel)
    (hst : st ∈ parseGo sup input [] none) :
    (sentinelIndices V1_lookup st).flatMap (indexOutput V1_charset) = sentinelContent st := by
  cases st with
  | text t =>
    simp only [sentinelIndices, sentinelContent]
    exact text_output_eq t (fun c hc => hs c (parseGo_text_chars sup input t hst c hc))
  | marker m =>
    obtain ⟨hsup, q, hqm, hq2⟩ := parseGo_markers sup input [] none m hst
    obtain ⟨h100, h118, hname, _⟩ := markers_spec q hqm
    subst hq2
    simp only [sentinelIndices, sentinelContent, List.flatMap_cons, List.flatMap_nil,
      List.append_nil, indexOutput]
    rw [if_pos (show 100 ≤ q.2 ∧ q.2 ≤ 127 by omega)]

/-- Every index produced for a base-range input is below 128, and every
marker index among them is supported by the active policy. -/
theorem indices_spec (sup : Nat → Bool) (input : List Nat)
    (hs : ∀ c ∈ input, in_base_range c) :
    ∀ i ∈ (parseGo sup input [] none).flatMap (sentinelIndices V1_lookup),
      i < 128 ∧ (100 ≤ i → sup i = true) := by
  intro i hi
  obtain ⟨st, hst, hist⟩ := List.mem_flatMap.mp hi
  cases st with
  | text t =>
    simp only [sentinelIndices, List.mem_map] at hist
    obtain ⟨c, hct, rfl⟩ := hist
    have hc : in_base_range c := hs c (parseGo_text_chars sup input t hst c hct)
    obtain ⟨hlt, _, _⟩ := v1_lookup_spec c (in_base_range_lt c hc) hc
    exact ⟨by omega, fun habs => absurd habs (by omega)⟩
  | marker m =>
    obtain ⟨hsup, q, hqm, hq2⟩ := parseGo_markers sup input [] none m hst
    obtain ⟨h100, h118, _, _⟩ := markers_spec q hqm
    simp only [sentinelIndices, List.mem_singleton] at hist
    subst hist
    subst hq2
    exact ⟨by omega, fun _ => hsup⟩

/-- Master round trip: for any strategy that strict-filters, leaves decode
output untouched, and has an arbitrary supported-index policy, encoding a
string of base-alphabet characters under V1 succeeds and decoding the
result restores the string exactly. -/
theorem strict_roundtrip (S : EncodingStrategy)
    (hpre : S.preprocess = filter_input strict_handle)
    (hpost : S.postprocess = fun out => out)
    (s : List Nat) (hs : ∀ c ∈ s, in_base_range c) :
    ∃ e, encode_with_strategy s V1_lookup S = .ok e ∧
      decode_with_strategy e V1_charset S = .ok s := by
  have hfil : S.preprocess s = .ok s := by
    rw [hpre]
    exact filter_input_keep strict_handle s (fun c hc => strict_handle_keep (hs c hc))
  have htext : ∀ t, Sentinel.text t ∈ parseGo S.supports_index s [] none →
      ∀ c ∈ t, c < 128 ∧ V1_lookup.getD c 0 ≠ 255 := by
    intro t ht c hc
    have hcb : in_base_range c := hs c (parseGo_text_chars S.supports_index s t ht c hc)
    obtain ⟨_, _, hne⟩ := v1_lookup_spec c (in_base_range_lt c hcb) hcb
    exact ⟨in_base_range_lt c hcb, hne⟩
  have hidx := sentinelsToIndices_ok V1_lookup (parseGo S.supports_index s [] none) htext
  have hall := indices_spec S.supports_index s hs
  refine ⟨packIndices ((parseGo S.supports_index s [] none).flatMap (sentinelIndices V1_lookup)),
    ?_, ?_⟩
  · rw [encode_with_strategy, hfil]
    simp only [parse_sentinels]
    rw [hidx]
  · have hext := extractIndices_padBits
      ((parseGo S.supports_index s [] none).flatMap (sentinelIndices V1_lookup))
      (fun i hi => (hall i hi).1)
    have htxt := indicesToText_ok V1_charset S.supports_index
      ((parseGo S.supports_index s [] none).flatMap (sentinelIndices V1_lookup))
      (fun i hi => ⟨by have := (hall i hi).1; omega, (hall i hi).2⟩)
    have hout : ((parseGo S.supports_index s [] none).flatMap
        (sentinelIndices V1_lookup)).flatMap (indexOutput V1_charset) = s := by
      rw [List.flatMap_assoc]
      rw [List.flatMap_congr (fun st hst => sentinel_output_eq S.supports_index s hs st hst)]
      have := parseGo_content S.supports_index s [] none
      simpa [modeContent] using this
    rw [decode_with_strategy, base64ToBits_packIndices]
    simp only [hext, htxt, hpost, hout]

/-! ## Error characterization lemmas -/

theorem ext_supports {i : Nat} (h : i ≤ 127) : extensions_strict.supports_index i = true := by
  simp [extensions_strict, ExtensionsStrategy, h]

/-- `base64ToBits` fails exactly when some input character is outside the
64-symbol packing alphabet. -/
theorem base64ToBits_error_iff :
    ∀ l : List Nat, (∃ err, base64ToBits l = .error err) ↔
      ∃ c ∈ l, 128 ≤ c ∨ BASE64_LOOKUP.getD c 0 = 255 := by
  intro l
  induction l with
  | nil =>
    constructor
    · rintro ⟨err, herr⟩; exact absurd herr (by rw [base64ToBits]; intro h; injection h)
    · rintro ⟨c, hc, _⟩; exact absurd hc (List.not_mem_nil c)
  | cons c rest ih =>
    rw [base64ToBits]
    by_cases h128 : 128 ≤ c
    · rw [if_pos h128]
      exact ⟨fun _ => ⟨c, by simp, Or.inl h128⟩, fun _ => ⟨.invalidBase64Character c, rfl⟩⟩
    · rw [if_neg h128]
      by_cases h255 : BASE64_LOOKUP.getD c 0 = 255
      · rw [if_pos h255]
        exact ⟨fun _ => ⟨c, by simp, Or.inr h255⟩, fun _ => ⟨.invalidBase64Character c, rfl⟩⟩
      · rw [if_neg h255]
        constructor
        · rintro ⟨err, herr⟩
          cases hb : base64ToBits rest with
          | error e =>
            obtain ⟨d, hd, hbad⟩ := ih.mp ⟨e, hb⟩
            exact ⟨d, by simp [hd], hbad⟩
          | ok bits => rw [hb] at herr; exact absurd herr (by intro h; injection h)
        · rintro ⟨d, hd, hbad⟩
          rcases List.mem_cons.mp hd with rfl | hdr
          · rcases hbad with h1 | h1 <;> exact absurd h1 (by omega)
          · obtain ⟨e, he⟩ := ih.mpr ⟨d, hdr, hbad⟩
            rw [he]
            exact ⟨e, rfl⟩

/-- Every extracted index fits in seven bits. -/
theorem extractIndices_le (bits : List Nat) : ∀ i ∈ extractIndices bits, i ≤ 127 := by
  intro i hi
  rw [extractIndices] at hi
  obtain ⟨ch, _, hich⟩ := List.mem_flatMap.mp hi
  by_cases h7 : ch.length = 7
  · rw [if_pos h7] at hich
    by_cases h127 : chunkValue 7 ch ≤ 127
    · rw [if_pos h127] at hich
      rw [List.mem_singleton.mp hich]
      exact h127
    · rw [if_neg h127] at hich; exact absurd hich (List.not_mem_nil i)
  · rw [if_neg h7] at hich; exact absurd hich (List.not_mem_nil i)

/-- `indicesToText` fails exactly when some index in 100–127 is
unsupported by the policy, or some index exceeds 127. -/
theorem indicesToText_error_iff (charset : List Nat) (sup : Nat → Bool) :
    ∀ idxs : List Nat, (∃ err, indicesToText charset sup idxs = .error err) ↔
      ∃ i ∈ idxs, (100 ≤ i ∧ i ≤ 127 ∧ sup i = false) ∨ 127 < i := by
  intro idxs
  induction idxs with
  | nil =>
    constructor
    · rintro ⟨err, herr⟩; exact absurd herr (by rw [indicesToText]; intro h; injection h)
    · rintro ⟨i, hi, _⟩; exact absurd hi (List.not_mem_nil i)
  | cons i rest ih =>
    rw [indicesToText]
    by_cases h100 : 100 ≤ i ∧ i ≤ 127
    · rw [if_pos h100]
      by_cases hsup : sup i
      · rw [if_pos hsup]
        constructor
        · rintro ⟨err, herr⟩
          cases hr : indicesToText charset sup rest with
          | error e =>
            obtain ⟨j, hj, hbad⟩ := ih.mp ⟨e, hr⟩
            exact ⟨j, by simp [hj], hbad⟩
          | ok t => rw [hr] at herr; exact absurd herr (by intro h; injection h)
        · rintro ⟨j, hj, hbad⟩
          rcases List.mem_cons.mp hj with rfl | hjr
          · rcases hbad with ⟨_, _, hf⟩ | hgt
            · rw [hsup] at hf; exact absurd hf (by simp)
            · exact absurd hgt (by omega)
          · obtain ⟨e, he⟩ := ih.mpr ⟨j, hjr, hbad⟩
            rw [he]
            exact ⟨e, rfl⟩
      · rw [if_neg hsup]
        refine ⟨fun _ => ⟨i, by simp, Or.inl ⟨h100.1, h100.2, by simpa using hsup⟩⟩,
          fun _ => ⟨.invalidIndex i, rfl⟩⟩
    · rw [if_neg h100]
      by_cases hlt : i < 100
      · rw [if_pos hlt]
        constructor
        · rintro ⟨err, herr⟩
          cases hr : indicesToText charset sup rest with
          | error e =>
            obtain ⟨j, hj, hbad⟩ := ih.mp ⟨e, hr⟩
            exact ⟨j, by simp [hj], hbad⟩
          | ok t => rw [hr] at herr; exact absurd herr (by intro h; injection h)
        · rintro ⟨j, hj, hbad⟩
          rcases List.mem_cons.mp hj with rfl | hjr
          · rcases hbad with ⟨hj1, _, _⟩ | hgt
            · exact absurd hj1 (by omega)
            · exact absurd hgt (by omega)
          · obtain ⟨e, he⟩ := ih.mpr ⟨j, hjr, hbad⟩
            rw [he]
            exact ⟨e, rfl⟩
      · rw [if_neg hlt]
        refine ⟨fun _ => ⟨i, by simp, Or.inr (by omega)⟩, fun _ => ⟨.invalidIndex i, rfl⟩⟩

/-- Strategy decode fails exactly when a packed character is invalid or a
resolved marker-range index is unsupported. -/
theorem decode_error_iff (S : EncodingStrategy) (encoded : List Nat) :
    (∃ err, decode_with_strategy encoded V1_charset S = .error err) ↔
      (∃ c ∈ encoded, 128 ≤ c ∨ BASE64_LOOKUP.getD c 0 = 255) ∨
      (∃ bits, base64ToBits encoded = .ok bits ∧
        ∃ i ∈ extractIndices bits, 100 ≤ i ∧ i ≤ 127 ∧ S.supports_index i = false) := by
  rw [decode_with_strategy]
  cases hb : base64ToBits encoded with
  | error e =>
    simp only
    constructor
    · intro _; exact Or.inl ((base64ToBits_error_iff encoded).mp ⟨e, hb⟩)
    · intro _; exact ⟨e, rfl⟩
  | ok bits =>
    simp only
    cases ht : indicesToText V1_charset S.supports_index (extractIndices bits) with
    | error e =>
      simp only
      constructor
      · intro _
        obtain ⟨i, hi, hbad⟩ := (indicesToText_error_iff V1_charset S.supports_index
          (extractIndices bits)).mp ⟨e, ht⟩
        rcases hbad with ⟨h1, h2, h3⟩ | hgt
        · exact Or.inr ⟨bits, rfl, i, hi, h1, h2, h3⟩
        · exact absurd hgt (by have := extractIndices_le bits i hi; omega)
      · intro _; exact ⟨e, rfl⟩
    | ok t =>
      simp only
      constructor
      · rintro ⟨err, herr⟩; exact absurd herr (by intro h; injection h)
      · rintro (h1 | ⟨bits2, hb2, i, hi, h100, h127, hsup⟩)
        · obtain ⟨e, he⟩ := (base64ToBits_error_iff encoded).mpr h1
          rw [he] at hb
          exact absurd hb (by intro h; injection h)
        · have hbits : bits = bits2 := by injection hb2
          subst hbits
          obtain ⟨e, he⟩ := (indicesToText_error_iff V1_charset S.supports_index
            (extractIndices bits)).mpr ⟨i, hi, Or.inl ⟨h100, h127, hsup⟩⟩
          rw [he] at ht
          exact absurd ht (by intro h; injection h)

/-- Legacy index-to-character conversion on sub-100 indices renders the
charset characters. -/
theorem legacyIndicesToText_sub100 (charset : List Nat) :
    ∀ l : List Nat, (∀ i ∈ l, i < 100) →
      legacyIndicesToText charset l = .ok (l.map (fun i => charset.getD i 0)) := by
  intro l
  induction l with
  | nil => intro _; rfl
  | cons i rest ih =>
    intro h
    have hi : i < 100 := h i (by simp)
    rw [legacyIndicesToText, if_neg (by omega : ¬ (100 ≤ i ∧ i ≤ 127)), if_pos hi,
      ih (fun j hj => h j (by simp [hj]))]
    rfl

theorem create_base_charset_eq : create_base_charset = [32, 33, 34, 35, 36, 37, 38, 39, 40, 41, 42, 43, 44, 45, 46, 47, 48, 49, 50, 51, 52, 53, 54, 55, 56, 57, 58, 59, 60, 61, 62, 63, 64, 65, 66, 67, 68, 69, 70, 71, 72, 73, 74, 75, 76, 77, 78, 79, 80, 81, 82, 83, 84, 85, 86, 87, 88, 89, 90, 91, 92, 93, 94, 95, 96, 97, 98, 99, 100, 101, 102, 103, 104, 105, 106, 107, 108, 109, 110, 111, 112, 113, 114, 115, 116, 117, 118, 119, 120, 121, 122, 123, 124, 125, 126, 9, 10, 13, 0, 1] := by rfl

/-! ## Claim theorems -/

/-- C1.  Round-trip fidelity of the strategy-based pipeline (V1 charset):
(1) every string of charset characters containing no `#` encodes under the
Core, Strict strategy and decodes back to itself; (2) every string
composed of charset characters and well-formed, recognized marker tokens
(rendered from a list of literal-character and marker items, covering
adjacent markers such as `#V##EOF#`, markers bordered by spaces, and
marker-free text) encodes under the Extensions, Strict strategy and
decodes back to itself. -/
theorem strategy_roundtrip_core_and_extensions :
    (∀ s : List Nat, (∀ c ∈ s, in_base_range c ∧ c ≠ 35) →
      ∃ e, encode_with_strategy s V1_lookup core_strict = .ok e ∧
        decode_with_strategy e V1_charset core_strict = .ok s) ∧
    (∀ items : List Item, (∀ it ∈ items, validItem it) →
      ∃ e, encode_with_strategy (renderItems items) V1_lookup extensions_strict = .ok e ∧
        decode_with_strategy e V1_charset extensions_strict = .ok (renderItems items)) := by
  constructor
  · intro s h
    exact strict_roundtrip core_strict rfl rfl s (fun c hc => (h c hc).1)
  · intro items h
    refine strict_roundtrip extensions_strict rfl rfl (renderItems items) ?_
    intro c hc
    obtain ⟨it, hit, hcit⟩ := List.mem_flatMap.mp hc
    cases it with
    | ch d =>
      have : c = d := List.mem_singleton.mp hcit
      subst this
      exact h _ hit
    | mk m =>
      obtain ⟨q, hqm, hq2⟩ := h _ hit
      subst hq2
      refine (markers_spec q hqm).2.2.2 c ?_
      rwa [renderItem, (markers_spec q hqm).2.2.1] at hcit

/-- Witness for C1 at the concrete inputs `"Hi"` (Core) and `"#V##EOF#"`
(Extensions, two adjacent markers). -/
theorem strategy_roundtrip_witness :
    (∃ e, encode_with_strategy (toCodes "Hi") V1_lookup core_strict = .ok e ∧
      decode_with_strategy e V1_charset core_strict = .ok (toCodes "Hi")) ∧
    (∃ e, encode_with_strategy (toCodes "#V##EOF#") V1_lookup extensions_strict = .ok e ∧
      decode_with_strategy e V1_charset extensions_strict = .ok (toCodes "#V##EOF#")) := by
  constructor
  · exact strategy_roundtrip_core_and_extensions.1 (toCodes "Hi") (by decide)
  · have h := strategy_roundtrip_core_and_extensions.2 [Item.mk 103, Item.mk 101] (by decide)
    rwa [show renderItems [Item.mk 103, Item.mk 101] = toCodes "#V##EOF#" from rfl] at h

/-- C2.  Bit-packing boundary: for indices in 0–127 the packed output has
exactly `⌈7n/6⌉ = (7n+5)/6` symbols, and unpacking followed by 7-bit
extraction recovers exactly the `n` original indices (the zero-padding
tail, shorter than seven bits, is discarded and never read as data). -/
theorem bit_packing_boundary (idxs : List Nat) (h : ∀ i ∈ idxs, i < 128) :
    (packIndices idxs).length = (7 * idxs.length + 5) / 6 ∧
      (base64ToBits (packIndices idxs)).map extractIndices = .ok idxs := by
  refine ⟨packIndices_length idxs, ?_⟩
  rw [base64ToBits_packIndices]
  simp only [Except.map]
  rw [extractIndices_padBits idxs h]

/-- Witness for C2 at `[0, 127, 64]` (length 3, output `⌈21/6⌉ = 4`). -/
theorem bit_packing_boundary_witness :
    (packIndices [0, 127, 64]).length = (7 * [0, 127, 64].length + 5) / 6 ∧
      (base64ToBits (packIndices [0, 127, 64])).map extractIndices = .ok [0, 127, 64] :=
  bit_packing_boundary [0, 127, 64] (by decide)

/-- Index injectivity follows from the inverse-lookup property; the other
invariants are checked directly. -/
theorem charset_lookup_ok_of (cs look : List Nat)
    (h : cs.length = 100 ∧ look.length = 128 ∧ cs.Nodup ∧
      (∀ c ∈ cs, c ∈ create_base_charset) ∧ (∀ c ∈ create_base_charset, c ∈ cs) ∧
      (∀ i < 100, look.getD (cs.getD i 0) 0 = i) ∧
      (∀ c < 128, c ∉ cs → look.getD c 0 = 255)) :
    charset_lookup_ok cs look := by
  obtain ⟨h1, h2, h3, h4, h5, h6, h7⟩ := h
  refine ⟨h1, h2, h3, h4, h5, h6, ?_, h7⟩
  intro i hi j hj heq
  have e1 := h6 i hi
  have e2 := h6 j hj
  rw [heq] at e1
  omega

/-- C4.  Charset/lookup invariant for all four exposed versions: each
100-entry charset is a duplicate-free rearrangement of the fixed base set
(no duplicates, no omissions), and each 128-entry lookup table is its
exact inverse — `lookup[charset[i]] = i` for `i < 100`, no two indices
share a character, and every absent ASCII code maps to 255. -/
theorem charset_lookup_invariants :
    charset_lookup_ok V1_charset V1_lookup ∧ charset_lookup_ok V2_charset V2_lookup ∧
      charset_lookup_ok V3_charset V3_lookup ∧ charset_lookup_ok V4_charset V4_lookup := by
  refine ⟨charset_lookup_ok_of _ _ ?_, charset_lookup_ok_of _ _ ?_,
    charset_lookup_ok_of _ _ ?_, charset_lookup_ok_of _ _ ?_⟩ <;>
    simp only [V1_charset_eq, V1_lookup_eq, V2_charset_eq, V2_lookup_eq,
      V3_charset_eq, V3_lookup_eq, V4_charset_eq, V4_lookup_eq, create_base_charset_eq] <;>
    decide

/-- C5.  Tokenizer pass-through and totality: tokenization succeeds on
every input under every policy; the emitted sentinels partition the input
exactly (so any candidate that is not an exactly-matching, supported
marker stays verbatim inside the literal text), and only supported table
markers ever become marker sentinels.  Concretely: `#FAKE#` (unknown
name) and a trailing unterminated `#` pass through as text under
Extensions; `#V#` passes through as text under Core (code unsupported);
and `#V##EOF#` resolves to two adjacent markers, each candidate consuming
exactly up to its own closing `#`. -/
theorem tokenizer_passthrough_totality :
    (∀ (supports : Nat → Bool) (input : List Nat),
      ∃ sents, parse_sentinels supports input = .ok sents ∧
        sents.flatMap sentinelContent = input ∧
        ∀ m, Sentinel.marker m ∈ sents → supports m = true ∧ ∃ q ∈ MARKERS, q.2 = m) ∧
    parse_sentinels extensions_strict.supports_index (toCodes "#FAKE#") =
      .ok [Sentinel.text (toCodes "#FAKE#")] ∧
    parse_sentinels extensions_strict.supports_index (toCodes "ab#") =
      .ok [Sentinel.text (toCodes "ab#")] ∧
    parse_sentinels core_strict.supports_index (toCodes "#V#") =
      .ok [Sentinel.text (toCodes "#V#")] ∧
    parse_sentinels extensions_strict.supports_index (toCodes "#V##EOF#") =
      .ok [Sentinel.marker 103, Sentinel.marker 101] := by
  refine ⟨?_, rfl, rfl, rfl, rfl⟩
  intro supports input
  refine ⟨parseGo supports input [] none, rfl, ?_, ?_⟩
  · have := parseGo_content supports input [] none
    simpa [modeContent] using this
  · exact fun m hm => parseGo_markers supports input [] none m hm

/-- Witness for C5 at a concrete policy and input. -/
theorem tokenizer_passthrough_witness :
    ∃ sents, parse_sentinels (fun i => decide (i ≤ 127)) (toCodes "a#b") = .ok sents ∧
      sents.flatMap sentinelContent = toCodes "a#b" ∧
      ∀ m, Sentinel.marker m ∈ sents → (fun i => decide (i ≤ 127)) m = true ∧
        ∃ q ∈ MARKERS, q.2 = m :=
  tokenizer_passthrough_totality.1 (fun i => decide (i ≤ 127)) (toCodes "a#b")

/-- C6.  Strict failure is all-or-nothing: any input containing a
character outside the base range makes encoding fail, under both
strategies that use the Strict filter, with the invalid-character error
carrying an offending character of the input — never a partial result. -/
theorem strict_failure_all_or_nothing (s : List Nat) (h : ∃ c ∈ s, ¬ in_base_range c) :
    ∃ c ∈ s, ¬ in_base_range c ∧
      encode_with_strategy s V1_lookup core_strict = .error (.invalidCharacter c) ∧
      encode_with_strategy s V1_lookup extensions_strict = .error (.invalidCharacter c) := by
  obtain ⟨c, hc, hbad, herr⟩ := filter_strict_error s h
  refine ⟨c, hc, hbad, ?_, ?_⟩ <;>
    · rw [encode_with_strategy]
      simp only [core_strict, extensions_strict, CoreStrategy, ExtensionsStrategy, herr]

/-- Witness for C6 at `[97, 200]` (the byte 200 is outside the base
alphabet). -/
theorem strict_failure_witness :
    ∃ c ∈ [97, 200], ¬ in_base_range c ∧
      encode_with_strategy [97, 200] V1_lookup core_strict = .error (.invalidCharacter c) ∧
      encode_with_strategy [97, 200] V1_lookup extensions_strict = .error (.invalidCharacter c) :=
  strict_failure_all_or_nothing [97, 200] ⟨200, by simp, by decide⟩

/-- C7.  Core policy literalness: `"#V#"` under Core, Strict is encoded
as three literal characters, the result differs from the Extensions,
Strict encoding of the same input (which emits the single marker code),
and the Core output decodes back to exactly `"#V#"`. -/
theorem core_policy_literalness :
    encode_with_strategy (toCodes "#V#") V1_lookup core_strict = .ok [66, 116, 103, 89] ∧
    encode_with_strategy (toCodes "#V#") V1_lookup extensions_strict = .ok [122, 103] ∧
    ([66, 116, 103, 89] : List Nat) ≠ [122, 103] ∧
    decode_with_strategy [66, 116, 103, 89] V1_charset core_strict = .ok (toCodes "#V#") := by
  exact ⟨rfl, rfl, by decide, rfl⟩

/-- C8.  Decode failure condition: under both Strict strategies, the
strategy-based decode fails if and only if some encoded character lies
outside the 64-symbol packing alphabet, or some complete 7-bit group
resolves to an index in 100–127 that the active policy does not support;
the error value is returned in place of any output. -/
theorem decode_failure_iff (encoded : List Nat) :
    ((∃ err, decode_with_strategy encoded V1_charset core_strict = .error err) ↔
      (∃ c ∈ encoded, 128 ≤ c ∨ BASE64_LOOKUP.getD c 0 = 255) ∨
      (∃ bits, base64ToBits encoded = .ok bits ∧
        ∃ i ∈ extractIndices bits, 100 ≤ i ∧ i ≤ 127 ∧ core_strict.supports_index i = false)) ∧
    ((∃ err, decode_with_strategy encoded V1_charset extensions_strict = .error err) ↔
      (∃ c ∈ encoded, 128 ≤ c ∨ BASE64_LOOKUP.getD c 0 = 255) ∨
      (∃ bits, base64ToBits encoded = .ok bits ∧
        ∃ i ∈ extractIndices bits, 100 ≤ i ∧ i ≤ 127 ∧
          extensions_strict.supports_index i = false)) :=
  ⟨decode_error_iff core_strict encoded, decode_error_iff extensions_strict encoded⟩

/-- Witness for C8 at `"!"` (invalid packing character) via the forward
direction at a concrete decode error. -/
theorem decode_failure_witness :
    (∃ c ∈ [33], 128 ≤ c ∨ BASE64_LOOKUP.getD c 0 = 255) ∨
      (∃ bits, base64ToBits [33] = .ok bits ∧
        ∃ i ∈ extractIndices bits, 100 ≤ i ∧ i ≤ 127 ∧ core_strict.supports_index i = false) :=
  (decode_failure_iff [33]).1.mp ⟨.invalidBase64Character 33, rfl⟩

/-- C9.  Legacy pair round-trip loss: the legacy encode resolves every
character with code 100–127 directly to that code (bypassing the charset
lookup); the legacy decode discards every extracted index at or above
100 before character conversion; marker post-processing replaces any
output byte 100–118 by its marker-name string; and consequently the
base-charset input `"d"` fails to round-trip through the legacy pair
(it encodes to `"yA"`, which decodes back to the empty string). -/
theorem legacy_roundtrip_loss :
    (∀ c, 100 ≤ c → c ≤ 127 → legacyCharIndex V1_lookup c = .ok c) ∧
    (∀ bits, legacyExtractIndices bits = (extractIndices bits).filter (fun i => i < 100)) ∧
    (∀ c, 100 ≤ c → c ≤ 118 → postprocess_markers [c] = marker_string c) ∧
    (encode_legacy (toCodes "d") V1_lookup = .ok [121, 65] ∧
      decode_legacy [121, 65] V1_charset = .ok [] ∧ toCodes "d" ≠ ([] : List Nat)) := by
  refine ⟨?_, legacyExtract_filter, ?_, rfl, rfl, by decide⟩
  · intro c h1 h2
    rw [legacyCharIndex, if_neg (by omega : ¬ 128 ≤ c), if_pos ⟨h1, h2⟩]
  · have hdec : ∀ c < 119, 100 ≤ c → postprocess_markers [c] = marker_string c := by decide
    intro c h1 h2
    exact hdec c (by omega) h1

/-- Witness for C9 at the concrete code 100 (`'d'`) and marker byte 103. -/
theorem legacy_roundtrip_loss_witness :
    legacyCharIndex V1_lookup 100 = .ok 100 ∧
      legacyExtractIndices (valueToBits 7 100) =
        (extractIndices (valueToBits 7 100)).filter (fun i => i < 100) ∧
      postprocess_markers [103] = marker_string 103 :=
  ⟨legacy_roundtrip_loss.1 100 (by decide) (by decide),
    legacy_roundtrip_loss.2.1 (valueToBits 7 100),
    legacy_roundtrip_loss.2.2.1 103 (by decide) (by decide)⟩

/-- C10.  Reserved marker codes decode silently under Extensions: for any
packed index stream, strategy-based decode under Extensions, Strict
succeeds, each index contributing its `indexOutput`; every reserved code
119–127 contributes the empty string — dropped silently, not reported as
an invalid index. -/
theorem reserved_codes_decode_silently (idxs : List Nat) (h : ∀ i ∈ idxs, i < 128) :
    decode_with_strategy (packIndices idxs) V1_charset extensions_strict =
      .ok (idxs.flatMap (indexOutput V1_charset)) ∧
    ∀ i, 119 ≤ i → i ≤ 127 → indexOutput V1_charset i = [] := by
  constructor
  · have hext := extractIndices_padBits idxs h
    have htxt := indicesToText_ok V1_charset extensions_strict.supports_index idxs
      (fun i hi => ⟨by have := h i hi; omega, fun _ => ext_supports (by have := h i hi; omega)⟩)
    rw [decode_with_strategy, base64ToBits_packIndices]
    simp only [hext, htxt]
    rfl
  · have hdec : ∀ i < 128, 119 ≤ i → indexOutput V1_charset i = [] := by decide
    intro i h1 h2
    exact hdec i (by omega) h1

/-- Witness for C10 at the stream `[65, 119, 3]` (a reserved code between
two charset indices). -/
theorem reserved_codes_witness :
    decode_with_strategy (packIndices [65, 119, 3]) V1_charset extensions_strict =
      .ok ([65, 119, 3].flatMap (indexOutput V1_charset)) ∧
    ∀ i, 119 ≤ i → i ≤ 127 → indexOutput V1_charset i = [] :=
  reserved_codes_decode_silently [65, 119, 3] (by decide)

/-- C3 counterexample.  The packed stream `"zg"` (`[122, 103]`) carries
the single 7-bit group 103 ∈ [100,127].  The claim predicts the legacy
decode emits the raw control byte `char(103)` in its output; in fact the
legacy decode drops the group at index extraction and returns the empty
string, while the strategy-based decode re-expands it to `"#V#"`. -/
theorem legacy_marker_byte_counterexample :
    decode_legacy [122, 103] V1_charset = .ok [] ∧
      decode_with_strategy [122, 103] V1_charset extensions_strict = .ok (toCodes "#V#") ∧
      (Except.ok ([] : List Nat) : Except Asc100Error (List Nat)) ≠ .ok [103] := by
  refine ⟨rfl, rfl, ?_⟩
  intro hcontra
  injection hcontra with h
  exact absurd h (by decide)

/-- C3 amended.  For every packed index stream: the legacy decode
discards every 7-bit group at or above 100 during extraction — such a
group contributes nothing to the output, which is the (marker-byte
post-processed) charset rendering of the sub-100 groups only — while the
strategy-based decode under Extensions re-expands each table code
100–118 to its bracketed `#NAME#` string. -/
theorem legacy_vs_strategy_marker_representation (idxs : List Nat)
    (h : ∀ i ∈ idxs, i < 128) :
    decode_legacy (packIndices idxs) V1_charset =
      .ok (postprocess_markers
        ((idxs.filter (fun i => i < 100)).map (fun i => V1_charset.getD i 0))) ∧
    decode_with_strategy (packIndices idxs) V1_charset extensions_strict =
      .ok (idxs.flatMap (indexOutput V1_charset)) ∧
    (∀ q ∈ MARKERS, indexOutput V1_charset q.2 = q.1) := by
  refine ⟨?_, ?_, ?_⟩
  · have hleg : legacyExtractIndices (padBits (indicesToBits idxs)) =
        idxs.filter (fun i => i < 100) := by
      rw [legacyExtract_filter, extractIndices_padBits idxs h]
    have hsub : ∀ i ∈ idxs.filter (fun i => i < 100), i < 100 := by
      intro i hi
      have := (List.mem_filter.mp hi).2
      exact of_decide_eq_true this
    rw [decode_legacy, base64ToBits_packIndices]
    simp only [hleg, legacyIndicesToText_sub100 V1_charset _ hsub]
  · have hext := extractIndices_padBits idxs h
    have htxt := indicesToText_ok V1_charset extensions_strict.supports_index idxs
      (fun i hi => ⟨by have := h i hi; omega, fun _ => ext_supports (by have := h i hi; omega)⟩)
    rw [decode_with_strategy, base64ToBits_packIndices]
    simp only [hext, htxt]
    rfl
  · intro q hq
    obtain ⟨h100, h118, hname, _⟩ := markers_spec q hq
    simp only [indexOutput]
    rw [if_pos (show 100 ≤ q.2 ∧ q.2 ≤ 127 by omega)]
    exact hname

/-- Witness for the amended C3 at the single-group stream of code 103. -/
theorem legacy_vs_strategy_witness :
    decode_legacy (packIndices [103]) V1_charset =
      .ok (postprocess_markers
        (([103].filter (fun i => i < 100)).map (fun i => V1_charset.getD i 0))) ∧
    decode_with_strategy (packIndices [103]) V1_charset extensions_strict =
      .ok ([103].flatMap (indexOutput V1_charset)) ∧
    (∀ q ∈ MARKERS, indexOutput V1_charset q.2 = q.1) :=
  legacy_vs_strategy_marker_representation [103] (by decide)
